import Mathlib

/-!
Verification of the provenance-gathering engine of `anemoi/utils/provenance.py`.

Paths, names and report values are modelled as `List Char` (`Str`), so that
Python's string operations (`str.replace`, `startswith`, `os.path.basename`,
`os.path.dirname`) can be embedded faithfully and executed by the kernel.
Dictionaries (`dict`) are insertion-ordered association lists updated in place;
sets (`set`) are duplicate-free lists.
-/

set_option linter.unusedVariables false

abbrev Str := List Char

/-- Python `str.replace(old, new)`, scanning left to right.  The `Nat`
argument counts characters still to be skipped because they belong to an
occurrence of `old` that has just been replaced; recursion is structural on
the scanned string. -/
def pyReplaceGo (old new : List Char) : List Char → Nat → List Char
  | [], 0 => if old.isEmpty then new else []
  | [], _ + 1 => []
  | _ :: rest, skip + 1 => pyReplaceGo old new rest skip
  | c :: rest, 0 =>
    if old.isPrefixOf (c :: rest) && !old.isEmpty then
      new ++ pyReplaceGo old new rest (old.length - 1)
    else if old.isEmpty then
      new ++ c :: pyReplaceGo old new rest 0
    else
      c :: pyReplaceGo old new rest 0

/-- Python `s.replace(old, new)`: replace the leftmost non-overlapping
occurrences of `old` in `s` by `new`. -/
def pyReplace (old new s : List Char) : List Char :=
  pyReplaceGo old new s 0

/-- Does `old` occur as a contiguous substring of `s`?  (`old in s` in Python;
the empty string occurs in every string.) -/
def occursIn (old : List Char) : List Char → Bool
  | [] => old.isEmpty
  | c :: rest => old.isPrefixOf (c :: rest) || occursIn old rest

/-- The token `f"<{name}>"` substituted for a matched install root
(provenance.py line 74). -/
def tokenOf (v : Str) : Str := '<' :: (v ++ ['>'])

/-- The root-substitution loop of `version` (provenance.py lines 73-74):
`for k, v in roots.items(): path = path.replace(k, f"<{v}>")`.
`roots` is the association list `path -> symbolic name` in iteration order. -/
def normalizePath (roots : List (Str × Str)) (p : Str) : Str :=
  roots.foldl (fun acc kv => pyReplace kv.1 (tokenOf kv.2) acc) p

/-- One step of the root-deduplication loop of `module_versions`
(provenance.py lines 113-115): `if path not in roots: roots[path] = name`.
The pair argument is `(name, path)` as produced by `sysconfig.get_paths().items()`. -/
def dedupStep (acc : List (Str × Str)) (nm : Str × Str) : List (Str × Str) :=
  if acc.any (fun q => q.1 = nm.2) then acc else acc ++ [(nm.2, nm.1)]

/-- The root-deduplication loop of `module_versions` (provenance.py lines 112-115):
builds the insertion-ordered dict `path -> name`, first name wins. -/
def dedupRoots (pairs : List (Str × Str)) : List (Str × Str) :=
  pairs.foldl dedupStep []

/-- Stable insertion into a list sorted by strictly decreasing key length:
`x` is placed after every element whose path is strictly longer. -/
def insertRootDesc (x : Str × Str) : List (Str × Str) → List (Str × Str)
  | [] => [x]
  | y :: ys => if x.1.length < y.1.length then y :: insertRootDesc x ys else x :: y :: ys

/-- Stable sort by decreasing path length, modelling
`sorted(roots.items(), key=lambda x: len(x[0]), reverse=True)`
(provenance.py line 118); Python's `sorted` is stable and so is this
insertion sort, hence they agree. -/
def sortRootsDesc : List (Str × Str) → List (Str × Str)
  | [] => []
  | x :: xs => insertRootDesc x (sortRootsDesc xs)

/-- The `roots` mapping built by `module_versions` (provenance.py lines 112-118)
from the `(name, path)` pairs of `sysconfig.get_paths().items()`. -/
def buildRoots (pairs : List (Str × Str)) : List (Str × Str) :=
  sortRootsDesc (dedupRoots pairs)

/-- Lookup in an association list by key (Python `d[k]` / `k in d`). -/
def dictLookup (d : List (Str × α)) (k : Str) : Option α :=
  (d.find? (fun q => decide (q.1 = k))).map Prod.snd

/-- Python `d[k] = v` on an insertion-ordered dict: replace in place if the key
is present, otherwise append. -/
def dictSet : List (Str × α) → Str → α → List (Str × α)
  | [], k, v => [(k, v)]
  | (k', v') :: rest, k, v =>
    if k' = k then (k, v) :: rest else (k', v') :: dictSet rest k v

/-- Python `s.add(x)` on a set modelled as a duplicate-free list. -/
def setAdd [DecidableEq α] (s : List α) (x : α) : List α :=
  if x ∈ s then s else s ++ [x]

/-- Index of the last `'/'` in a path, if any (`path.rfind('/')`). -/
def lastSlashIdx : Str → Option Nat
  | [] => none
  | c :: rest =>
    match lastSlashIdx rest with
    | some i => some (i + 1)
    | none => if c = '/' then some 0 else none

/-- POSIX `os.path.basename`: everything after the last `'/'`, for POSIX paths: everything after the last `'/'`. -/
def basename (p : Str) : Str :=
  match lastSlashIdx p with
  | none => p
  | some i => p.drop (i + 1)

/-- Drop trailing `'/'` characters (`head.rstrip('/')`). -/
def rstripSlash (t : Str) : Str :=
  (t.reverse.dropWhile (fun c => c = '/')).reverse

/-- POSIX `os.path.dirname`: take the prefix up to and including the
last `'/'`; if that prefix is nonempty and not made of slashes only, strip its
trailing slashes. -/
def dirname (p : Str) : Str :=
  let i : Nat :=
    match lastSlashIdx p with
    | none => 0
    | some j => j + 1
  let head := p.take i
  if head ≠ [] ∧ head ≠ List.replicate head.length '/' then rstripSlash head else head

/-- A loaded Python module as `version` sees it: `fileAttr` is
`module.__file__` (`none` if the attribute is absent, `some none` if it is
`None`), `versionAttr` is `module.__version__` (absent or a string). -/
structure PyModule where
  fileAttr : Option (Option Str)
  versionAttr : Option Str
deriving DecidableEq

/-- The mutable state threaded through `version`: the `versions` dict, the
`namespaces` set and the `paths` set of candidate `(name, path)` pairs. -/
structure VState where
  versions : List (Str × Str)
  namespaces : List Str
  paths : List (Str × Str)
deriving DecidableEq

/-- The `"<stdlib>"` marker tested at provenance.py line 91. -/
def stdlibTok : Str := tokenOf ('s' :: 't' :: 'd' :: 'l' :: 'i' :: 'b' :: [])

/-- Python `os.path.join("...", basename)`: the basename contains no `'/'`, so the
join is plain concatenation with a separator. -/
def dotsName (p : Str) : Str := '.' :: '.' :: '.' :: '/' :: basename p

/-- The function `version(versions, name, module, roots, namespaces, paths, full)`
of provenance.py (lines 67-106).  Lines 70-77 resolve and normalize the path and
add a candidate pair when the normalized path still starts with `'/'`; then the
`__version__` attribute wins if present; then a `None` path marks a namespace;
then `"<stdlib>"`-prefixed paths are skipped; then the path itself is emitted
(FULL verbatim, SUMMARY as `".../" + basename` only when it does not start with
`'<'`).  The fallbacks at lines 103-106 are unreachable: the `try` block at
lines 85-99 returns on every control path and raises no `AttributeError`. -/
def version (st : VState) (name : Str) (module : PyModule) (roots : List (Str × Str))
    (full : Bool) : VState :=
  let pp : Option Str × List (Str × Str) :=
    match module.fileAttr with
    | some (some p0) =>
      let p := normalizePath roots p0
      if ('/' :: []).isPrefixOf p then (some p, setAdd st.paths (name, p)) else (some p, st.paths)
    | some none => (none, st.paths)
    | none => (none, st.paths)
  let path := pp.1
  let paths := pp.2
  match module.versionAttr with
  | some v => { st with versions := dictSet st.versions name v, paths := paths }
  | none =>
    match path with
    | none => { st with namespaces := setAdd st.namespaces name, paths := paths }
    | some p =>
      if stdlibTok.isPrefixOf p then { st with paths := paths }
      else if full then { st with versions := dictSet st.versions name p, paths := paths }
      else if ¬ (('<' :: []).isPrefixOf p) then
        { st with versions := dictSet st.versions name (dotsName p), paths := paths }
      else { st with paths := paths }

/-- Strict lexicographic comparison of strings (Python `<` on `str`). -/
def strLtB : Str → Str → Bool
  | [], [] => false
  | [], _ :: _ => true
  | _ :: _, [] => false
  | a :: as, b :: bs => if a < b then true else if b < a then false else strLtB as bs

/-- Stable insertion for an ascending sort: `x` goes after every element `y`
with `lt y x` and before the first other one. -/
def insertAscBy (lt : α → α → Bool) (x : α) : List α → List α
  | [] => [x]
  | y :: ys => if lt y x then y :: insertAscBy lt x ys else x :: y :: ys

/-- Stable ascending insertion sort; agrees with Python's stable `sorted`. -/
def sortAscBy (lt : α → α → Bool) : List α → List α
  | [] => []
  | x :: xs => insertAscBy lt x (sortAscBy lt xs)

/-- Python `sorted` on a list of strings. -/
def sortStrAsc (l : List Str) : List Str := sortAscBy strLtB l

/-- Python `sorted(sys.modules.items())`: items compared by key first; keys of
a dict are unique, so the modules themselves are never compared. -/
def sortByName (mods : List (Str × PyModule)) : List (Str × PyModule) :=
  sortAscBy (fun a b => strLtB a.1 b.1) mods

/-- Python `k.split(".")`: `cur` accumulates the current segment reversed. -/
def splitOnDotAux : Str → Str → List Str
  | [], cur => [cur.reverse]
  | c :: rest, cur =>
    if c = '.' then cur.reverse :: splitOnDotAux rest [] else splitOnDotAux rest (c :: cur)

/-- Python `k.split(".")`. -/
def splitOnDot (s : Str) : List Str := splitOnDotAux s []

/-- An exception raised while reading repository state: `check_for_git`
catches `ValueError` only (provenance.py line 61); any other exception
propagates. -/
inductive PyExc where
  | valueError (msg : Str)
  | otherExc (msg : Str)
deriving DecidableEq

/-- Repository state as read from a found repo: head commit sha, modified
files (`repo.index.diff(None)`), untracked files, remote URLs. -/
structure GitState where
  sha1 : Str
  modifiedFiles : List Str
  untrackedFiles : List Str
  remotes : List Str
deriving DecidableEq

/-- The per-component record built by `check_for_git` (lines 41-59):
SUMMARY holds counts, FULL holds the candidate path, remotes and sorted file
lists. -/
inductive RepoRecord where
  | summary (sha1 : Str) (modifiedFiles untrackedFiles : Nat)
  | fullRec (path : Str) (sha1 : Str) (remotes : List Str)
      (modifiedFiles untrackedFiles : List Str)
deriving DecidableEq

/-- Outcome of `lookup_git_repo(path)` followed by the state reads, as an
oracle on the candidate path: `none` = no enclosing repository,
`some (.error e)` = a repository was found but reading its state raised `e`,
`some (.ok st)` = state read successfully. -/
abbrev GitProbe := Str → Option (Except PyExc GitState)

/-- The loop body of `check_for_git` (provenance.py lines 32-64), with the
`versions` dict as accumulator.  A `ValueError` is logged and the record
omitted; any other exception propagates out of the loop (`Except.error`). -/
def check_for_git_go (probe : GitProbe) (full : Bool)
    (acc : List (Str × RepoRecord)) :
    List (Str × Str) → Except Str (List (Str × RepoRecord))
  | [] => .ok acc
  | (name, path) :: rest =>
    match probe path with
    | none => check_for_git_go probe full acc rest
    | some (.error (.valueError _)) => check_for_git_go probe full acc rest
    | some (.error (.otherExc m)) => .error m
    | some (.ok gs) =>
      let r : RepoRecord :=
        if full then
          .fullRec path gs.sha1 gs.remotes (sortStrAsc gs.modifiedFiles)
            (sortStrAsc gs.untrackedFiles)
        else
          .summary gs.sha1 gs.modifiedFiles.length gs.untrackedFiles.length
      check_for_git_go probe full (dictSet acc name r) rest

/-- The function `check_for_git(paths, full)` (provenance.py lines 32-64). -/
def check_for_git (probe : GitProbe) (paths : List (Str × Str)) (full : Bool) :
    Except Str (List (Str × RepoRecord)) :=
  check_for_git_go probe full [] paths

/-- Pass-1 guard of `module_versions` (line 125): `if "." not in k`. -/
def condPass1 (st : VState) (km : Str × PyModule) : Bool :=
  !(km.1.contains '.')

/-- Pass-2 guard of `module_versions` (lines 130-131):
`bits = k.split("."); len(bits) == 2 and bits[0] in namespaces`, reading the
`namespaces` set live as the loop mutates it. -/
def condPass2 (st : VState) (km : Str × PyModule) : Bool :=
  match splitOnDot km.1 with
  | [b0, _] => st.namespaces.contains b0
  | _ => false

/-- One enumeration pass of `module_versions`: fold `version` over the sorted
module list, guarded by the pass condition (which may read the live state). -/
def passFold (roots : List (Str × Str)) (full : Bool)
    (cond : VState → (Str × PyModule) → Bool)
    (mods : List (Str × PyModule)) (st : VState) : VState :=
  mods.foldl (fun s km => if cond s km then version s km.1 km.2 roots full else s) st

/-- The function `module_versions(full)` (provenance.py lines 109-136): build the root
mapping from the `(name, path)` pairs of `sysconfig.get_paths().items()`,
enumerate top-level modules then depth-2 modules under namespaces, then probe
the collected candidate paths.  An exception escaping `check_for_git`
propagates and loses the whole result. -/
def module_versions (probe : GitProbe) (sysPairs : List (Str × Str))
    (modules : List (Str × PyModule)) (full : Bool) :
    Except Str (List (Str × Str) × List (Str × RepoRecord)) :=
  let roots := buildRoots sysPairs
  let sortedMods := sortByName modules
  let st1 := passFold roots full condPass1 sortedMods ⟨[], [], []⟩
  let st2 := passFold roots full condPass2 sortedMods st1
  match check_for_git probe st2.paths full with
  | .ok gv => .ok (st2.versions, gv)
  | .error m => .error m

/-- A value returned by a zero-argument `platform` query: a string, a list or
tuple (both satisfy `isinstance(v, (list, tuple))`, so they are merged), or a
value of any other type (never equal to `""`). -/
inductive PVal where
  | str (s : Str)
  | seq (xs : List PVal)
  | other

mutual

/-- The per-element test of the generator inside `all_empty` (line 152):
recurse on lists/tuples, compare strings with `""`, everything else is
`v == ""` i.e. false. -/
def pvElemEmpty : PVal → Bool
  | .str s => s.isEmpty
  | .seq xs => all_empty xs
  | .other => false

/-- The function `all_empty(x)` of `platform_info` (provenance.py lines 151-152). -/
def all_empty : List PVal → Bool
  | [] => true
  | v :: rest => pvElemEmpty v && all_empty rest

end

/-- The deletion loop of `platform_info` (provenance.py lines 154-156): drop
an entry iff its value is a list/tuple and `all_empty` holds of it. -/
def dropAllEmpty : List (Str × PVal) → List (Str × PVal)
  | [] => []
  | (k, v) :: rest =>
    match v with
    | .seq xs => if all_empty xs then dropAllEmpty rest else (k, .seq xs) :: dropAllEmpty rest
    | v' => (k, v') :: dropAllEmpty rest

/-- The function `platform_info()` (provenance.py lines 139-158).  The collection loop is
driven by the host: `probes` lists the public `platform` attribute names in
`dir` order with `some v` when `getattr(platform, p)()` returns `v` and `none`
when it raises; the post-filter then deletes the all-empty sequences. -/
def platform_info (probes : List (Str × Option PVal)) : List (Str × PVal) :=
  dropAllEmpty
    (probes.foldl
      (fun r kp => match kp.2 with | some v => dictSet r kp.1 v | none => r) [])

/-- The environment `gpu_info` runs in: whether `import nvsmi` succeeds,
whether `nvsmi.is_nvidia_smi_on_path()` holds, and the outcome of
enumerating GPUs (`.error out` models `subprocess.CalledProcessError` with
captured output `out`; `.ok` carries one JSON record per detected GPU). -/
structure GpuEnv where
  nvsmiInstalled : Bool
  smiOnPath : Bool
  runGpus : Except Str (List Str)

/-- The value `gpu_info` returns: a plain string (the absence sentinel or the
decoded error output) or the list of per-GPU records. -/
inductive GpuVal where
  | text (s : Str)
  | records (gs : List Str)
deriving DecidableEq

/-- Python `str.strip()` whitespace test. -/
def pySpace (c : Char) : Bool :=
  c = ' ' || c = '\t' || c = '\n' || c = '\r' || c = Char.ofNat 11 || c = Char.ofNat 12

/-- Python `s.strip()`. -/
def pyStrip (s : Str) : Str :=
  ((s.dropWhile pySpace).reverse.dropWhile pySpace).reverse

/-- The sentinel returned when `nvidia-smi` is not on the PATH
(provenance.py line 165, with the source's own spelling). -/
def smiNotFound : Str := "nvdia-smi not found".toList

/-- The message of the `ModuleNotFoundError` raised by `import nvsmi`. -/
def nvsmiImportError : Str := "No module named nvsmi".toList

/-- The function `gpu_info()` (provenance.py lines 161-170).  `import nvsmi` is inside the
function and unguarded, so a missing `nvsmi` package raises out of the
function (`Except.error`); otherwise: binary not on PATH → sentinel string,
`CalledProcessError` → decoded stripped output, success → one record per GPU. -/
def gpu_info (env : GpuEnv) : Except Str GpuVal :=
  if !env.nvsmiInstalled then .error nvsmiImportError
  else if !env.smiOnPath then .ok (.text smiNotFound)
  else
    match env.runGpus with
    | .error out => .ok (.text (pyStrip out))
    | .ok gs => .ok (.records gs)

/-- The stat-and-hash result for one asset: size, the three timestamps
already rendered by `datetime.fromtimestamp(..).isoformat()`, and the md5
hex digest. -/
structure StatInfo where
  size : Nat
  atimeIso : Str
  mtimeIso : Str
  ctimeIso : Str
  md5 : Str
deriving DecidableEq

/-- An entry of the `assets_info` result: the captured error text
(`str(e)`) on stat/hash failure, or the structured record with an optional
`peek` field. -/
inductive AssetRecord where
  | errText (s : Str)
  | record (size : Nat) (atime mtime ctime : Str) (md5 : Str) (peek : Option Str)
deriving DecidableEq

/-- The filesystem and collaborator environment of `assets_info`:
`statRes` is the combined outcome of `os.stat(path)` and `path_md5(path)`
(`.error` carries `str(e)` of the raised exception); `peekRes` is the outcome
of `from .checkpoint import peek; peek(path)` (`.error` when the import or the
call raises). -/
structure AssetEnv where
  statRes : Str → Except Str StatInfo
  peekRes : Str → Except Unit Str

/-- The loop body of `assets_info` (provenance.py lines 186-207). -/
def assetStep (env : AssetEnv) (result : List (Str × AssetRecord)) (path : Str) :
    List (Str × AssetRecord) :=
  match env.statRes path with
  | .error e => dictSet result path (.errText e)
  | .ok info =>
    let base : AssetRecord :=
      .record info.size info.atimeIso info.mtimeIso info.ctimeIso info.md5 none
    let withPeek : AssetRecord :=
      match env.peekRes path with
      | .error _ => base
      | .ok pk => .record info.size info.atimeIso info.mtimeIso info.ctimeIso info.md5 (some pk)
    dictSet result path withPeek

/-- The function `assets_info(paths)` (provenance.py lines 183-209). -/
def assets_info (env : AssetEnv) (paths : List Str) : List (Str × AssetRecord) :=
  paths.foldl (assetStep env) []

/-- The function `lookup_git_repo(path)` (provenance.py lines 19-29), with `Repo(path)`
modelled by the oracle `isRepo` (`true` = construction succeeds, `false` =
`InvalidGitRepositoryError`) and the unbounded `while` loop run on explicit
fuel: `none` means the fuel ran out, i.e. the loop has not terminated within
that many iterations; `some none` is Python's `None`, `some (some p)` is the
repository constructed at `p`. -/
def lookupGitRepo (isRepo : Str → Bool) : Nat → Str → Option (Option Str)
  | 0, _ => none
  | fuel + 1, path =>
    if path = ('/' :: []) then some none
    else if isRepo path then some (some path)
    else lookupGitRepo isRepo fuel (dirname path)


/-- The probe used in the C5 counterexample: reading state at `/bad/x.py`
raises a non-`ValueError` exception; every other candidate probes fine. -/
def probeOtherExc : GitProbe := fun p =>
  if p = "/bad/x.py".toList then some (.error (.otherExc "boom".toList))
  else some (.ok ⟨"abc123".toList, [], [], []⟩)

/-- The probe used in the C5 witness: reading state at `/r/x.py` raises
`ValueError`; every other candidate probes fine. -/
def probeValueErr : GitProbe := fun p =>
  if p = "/r/x.py".toList then some (.error (.valueError "corrupt index".toList))
  else some (.ok ⟨"abc123".toList, [], [], []⟩)

/-- The asset environment of the C7 witness: `/missing.bin` fails to stat,
`/data.bin` stats fine but the peek collaborator raises on it. -/
def assetEnvW : AssetEnv :=
  ⟨fun p => if p = "/missing.bin".toList
      then .error "No such file or directory".toList
      else .ok ⟨5, "A".toList, "M".toList, "C".toList, "d41d8".toList⟩,
   fun _ => .error ()⟩

/-- The repository oracle of the C10 witness: only `/home/user/proj` is a
repository root. -/
def isRepoW : Str → Bool := fun q => q = "/home/user/proj".toList

/-! Lemmas: Lemmas about `pyReplace` -/

/-- Bridge between the boolean and propositional list prefix tests. -/
theorem isPrefixOf_iff_pref (l1 l2 : List Char) : l1.isPrefixOf l2 = true ↔ l1 <+: l2 :=
 List.isPrefixOf_iff_prefix


theorem pyReplaceGo_skip (old new : List Char) (t s : List Char) (k : Nat) :
    pyReplaceGo old new (t ++ s) (t.length + k) = pyReplaceGo old new s k := by
  induction t with
  | nil => simp
  | cons c t ih =>
    have : (c :: t).length + k = (t.length + k) + 1 := by
      simp [List.length_cons]; omega
    rw [this]
    simpa [pyReplaceGo] using ih

theorem pyReplace_front (old new s : List Char) (h : old ≠ []) :
    pyReplace old new (old ++ s) = new ++ pyReplace old new s := by
  match old, h with
  | o :: os, _ =>
    show pyReplaceGo (o :: os) new (o :: (os ++ s)) 0 = _
    have hpre : (o :: os).isPrefixOf (o :: (os ++ s)) = true := by
      rw [(isPrefixOf_iff_pref _ _)]
      exact List.prefix_append (o :: os) s
    have hne : ((o :: os).isEmpty : Bool) = false := rfl
    simp only [pyReplaceGo, hpre, hne, Bool.not_false, Bool.and_true, if_pos]
    have : (o :: os).length - 1 = os.length + 0 := by simp
    rw [this, pyReplaceGo_skip]
    rfl

theorem isPrefixOf_eq_true_of_nil (s : List Char) : List.isPrefixOf [] s = true := by
  rw [(isPrefixOf_iff_pref _ _)]; exact List.nil_prefix

theorem ne_nil_of_not_occursIn {old s : List Char} (h : occursIn old s = false) :
    old ≠ [] := by
  intro hnil
  subst hnil
  cases s with
  | nil => simp [occursIn, List.isEmpty] at h
  | cons c rest => simp [occursIn, isPrefixOf_eq_true_of_nil] at h

theorem pyReplace_not_occurs (old new : List Char) (s : List Char)
    (h : occursIn old s = false) : pyReplace old new s = s := by
  induction s with
  | nil =>
    have : (old.isEmpty : Bool) = false := by
      cases old with
      | nil => simp [occursIn] at h
      | cons _ _ => rfl
    simp [pyReplace, pyReplaceGo, this]
  | cons c rest ih =>
    have h1 : old.isPrefixOf (c :: rest) = false := by
      simp only [occursIn, Bool.or_eq_false_iff] at h
      exact h.1
    have h2 : occursIn old rest = false := by
      simp only [occursIn, Bool.or_eq_false_iff] at h
      exact h.2
    have hne : old ≠ [] := ne_nil_of_not_occursIn h
    have hemp : (old.isEmpty : Bool) = false := by
      cases old with
      | nil => exact absurd rfl hne
      | cons _ _ => rfl
    show pyReplaceGo old new (c :: rest) 0 = c :: rest
    simp only [pyReplaceGo, h1, hemp, Bool.false_and, if_neg, Bool.false_eq_true,
      not_false_eq_true]
    exact congrArg (c :: ·) (ih h2)

theorem pyReplace_no_slash_front (old new : List Char) (t s : List Char)
    (hhead : old.head? = some '/') (ht : ∀ c ∈ t, c ≠ '/') :
    pyReplace old new (t ++ s) = t ++ pyReplace old new s := by
  cases old with
  | nil => simp [List.head?] at hhead
  | cons o old' =>
    have ho : o = '/' := by simpa [List.head?] using hhead
    subst ho
    induction t with
    | nil => rfl
    | cons c t ih =>
      have hc : c ≠ '/' := ht c (List.mem_cons_self c t)
      have h1 : ('/' :: old').isPrefixOf (c :: (t ++ s)) = false := by
        show (('/' == c) && old'.isPrefixOf (t ++ s)) = false
        have : ('/' == c) = false := by
          simp only [beq_eq_false_iff_ne, ne_eq]
          exact fun hh => hc hh.symm
        simp [this]
      show pyReplaceGo ('/' :: old') new (c :: (t ++ s)) 0 = _
      simp only [pyReplaceGo, h1, Bool.false_and, if_neg, Bool.false_eq_true,
        not_false_eq_true, List.isEmpty_cons, Bool.false_eq_true]
      exact congrArg (c :: ·) (ih (fun x hx => ht x (List.mem_cons_of_mem c hx)))

/-! Lemmas: Lemmas about `normalizePath` folds -/

theorem normalizePath_no_occurs (A : List (Str × Str)) (p : Str)
    (h : ∀ kv ∈ A, occursIn kv.1 p = false) :
    normalizePath A p = p := by
  induction A with
  | nil => rfl
  | cons a A ih =>
    show normalizePath A (pyReplace a.1 (tokenOf a.2) p) = p
    rw [pyReplace_not_occurs _ _ _ (h a (List.mem_cons_self a A))]
    exact ih (fun kv hkv => h kv (List.mem_cons_of_mem a hkv))

theorem normalizePath_token_front (B : List (Str × Str)) (tok : Str)
    (htok : ∀ c ∈ tok, c ≠ '/') :
    ∀ s, (∀ kv ∈ B, (kv.1 : Str).head? = some '/') →
      normalizePath B (tok ++ s) = tok ++ normalizePath B s := by
  induction B with
  | nil => intro s _; rfl
  | cons b B ih =>
    intro s hB
    show normalizePath B (pyReplace b.1 (tokenOf b.2) (tok ++ s)) = _
    rw [pyReplace_no_slash_front _ _ _ _ (hB b (List.mem_cons_self b B)) htok]
    exact ih _ (fun kv hkv => hB kv (List.mem_cons_of_mem b hkv))

/-! Lemmas: Lemmas about dicts and sets -/

theorem dictLookup_nil (k : Str) : dictLookup ([] : List (Str × α)) k = none := rfl

theorem dictLookup_cons (k' : Str) (v' : α) (d : List (Str × α)) (k : Str) :
    dictLookup ((k', v') :: d) k = if k' = k then some v' else dictLookup d k := by
  by_cases h : k' = k <;> simp [dictLookup, List.find?, h]

theorem dictLookup_dictSet_self (d : List (Str × α)) (k : Str) (v : α) :
    dictLookup (dictSet d k v) k = some v := by
  induction d with
  | nil => simp [dictSet, dictLookup, List.find?]
  | cons kv d ih =>
    match kv with
    | (k', v') =>
      by_cases h : k' = k
      · simp [dictSet, h, dictLookup_cons]
      · simp [dictSet, h, dictLookup_cons, ih]

theorem dictLookup_dictSet_ne (d : List (Str × α)) (k k' : Str) (v : α) (h : k' ≠ k) :
    dictLookup (dictSet d k v) k' = dictLookup d k' := by
  have hne : k ≠ k' := fun hh => h hh.symm
  induction d with
  | nil => simp [dictSet, dictLookup_cons, dictLookup_nil, hne]
  | cons kv d ih =>
    match kv with
    | (k0, v0) =>
      by_cases h0 : k0 = k
      · subst h0
        simp [dictSet, dictLookup_cons, hne]
      · simp [dictSet, h0, dictLookup_cons, ih]

theorem mem_setAdd [DecidableEq α] (s : List α) (x y : α) :
    y ∈ setAdd s x ↔ y ∈ s ∨ y = x := by
  by_cases h : x ∈ s
  · simp only [setAdd, if_pos h]
    constructor
    · exact Or.inl
    · rintro (hy | rfl)
      · exact hy
      · exact h
  · simp [setAdd, if_neg h]

/-! Lemmas: Lemmas about `buildRoots`: permutation, sortedness, key uniqueness -/

theorem insertRootDesc_perm (x : Str × Str) (l : List (Str × Str)) :
    (insertRootDesc x l).Perm (x :: l) := by
  induction l with
  | nil => exact List.Perm.refl _
  | cons y ys ih =>
    by_cases h : x.1.length < y.1.length
    · simp only [insertRootDesc, if_pos h]
      exact (ih.cons y).trans (List.Perm.swap x y ys)
    · simp only [insertRootDesc, if_neg h]
      exact List.Perm.refl _

theorem sortRootsDesc_perm (l : List (Str × Str)) : (sortRootsDesc l).Perm l := by
  induction l with
  | nil => exact List.Perm.refl _
  | cons x xs ih =>
    exact (insertRootDesc_perm x (sortRootsDesc xs)).trans (ih.cons x)

theorem pairwise_insertRootDesc (x : Str × Str) (l : List (Str × Str))
    (hl : l.Pairwise (fun a b => b.1.length ≤ a.1.length)) :
    (insertRootDesc x l).Pairwise (fun a b => b.1.length ≤ a.1.length) := by
  induction l with
  | nil => simp [insertRootDesc]
  | cons y ys ih =>
    rcases List.pairwise_cons.mp hl with ⟨hy, hys⟩
    by_cases h : x.1.length < y.1.length
    · simp only [insertRootDesc, if_pos h]
      refine List.pairwise_cons.mpr ⟨?_, ih hys⟩
      intro z hz
      rcases List.mem_cons.mp ((insertRootDesc_perm x ys).mem_iff.mp hz) with rfl | hzys
      · exact Nat.le_of_lt h
      · exact hy z hzys
    · simp only [insertRootDesc, if_neg h]
      refine List.pairwise_cons.mpr ⟨?_, hl⟩
      intro z hz
      rcases List.mem_cons.mp hz with rfl | hzys
      · exact Nat.le_of_not_lt h
      · exact le_trans (hy z hzys) (Nat.le_of_not_lt h)

theorem sortRootsDesc_sorted (l : List (Str × Str)) :
    (sortRootsDesc l).Pairwise (fun a b => b.1.length ≤ a.1.length) := by
  induction l with
  | nil => simp [sortRootsDesc]
  | cons x xs ih => exact pairwise_insertRootDesc x (sortRootsDesc xs) ih

theorem dedupRoots_go_keysNodup (ps : List (Str × Str)) :
    ∀ acc : List (Str × Str), acc.Pairwise (fun a b => a.1 ≠ b.1) →
      (ps.foldl dedupStep acc).Pairwise (fun a b => a.1 ≠ b.1) := by
  induction ps with
  | nil => intro acc h; exact h
  | cons p ps ih =>
    intro acc h
    rw [List.foldl_cons]
    apply ih
    unfold dedupStep
    by_cases hany : (acc.any fun q => decide (q.1 = p.2)) = true
    · rw [if_pos hany]; exact h
    · rw [if_neg hany]
      rw [List.pairwise_append]
      refine ⟨h, by simp, ?_⟩
      intro a ha b hb
      have hb' : b = (p.2, p.1) := by simpa using hb
      subst hb'
      intro heq
      exact hany (List.any_eq_true.mpr ⟨a, ha, by simpa using heq⟩)

theorem dedupRoots_keysNodup (ps : List (Str × Str)) :
    (dedupRoots ps).Pairwise (fun a b => a.1 ≠ b.1) :=
  dedupRoots_go_keysNodup ps [] (by simp)

theorem buildRoots_keysNodup (ps : List (Str × Str)) :
    (buildRoots ps).Pairwise (fun a b => a.1 ≠ b.1) :=
  ((sortRootsDesc_perm (dedupRoots ps)).pairwise_iff (fun h => Ne.symm h)).mpr
    (dedupRoots_keysNodup ps)

theorem buildRoots_sorted (ps : List (Str × Str)) :
    (buildRoots ps).Pairwise (fun a b => b.1.length ≤ a.1.length) :=
  sortRootsDesc_sorted (dedupRoots ps)

theorem buildRoots_mem_iff (ps : List (Str × Str)) (x : Str × Str) :
    x ∈ buildRoots ps ↔ x ∈ dedupRoots ps :=
  (sortRootsDesc_perm (dedupRoots ps)).mem_iff

/-! Lemmas: Lookup characterizations -/

theorem dictLookup_append (d₁ d₂ : List (Str × α)) (k : Str) :
    dictLookup (d₁ ++ d₂) k = (dictLookup d₁ k).or (dictLookup d₂ k) := by
  unfold dictLookup
  rw [List.find?_append]
  cases List.find? (fun q => decide (q.1 = k)) d₁ <;> simp [Option.or]

theorem dictLookup_eq_some_of_mem (d : List (Str × α)) (r : Str) (n : α)
    (hnd : d.Pairwise (fun a b => a.1 ≠ b.1)) (hmem : (r, n) ∈ d) :
    dictLookup d r = some n := by
  induction d with
  | nil => cases hmem
  | cons kv d ih =>
    rcases List.pairwise_cons.mp hnd with ⟨hk, hd⟩
    obtain ⟨k0, v0⟩ := kv
    rcases List.mem_cons.mp hmem with heq | hmem'
    · injection heq with h1 h2
      subst h1
      subst h2
      simp [dictLookup_cons]
    · have hne : k0 ≠ r := hk (r, n) hmem'
      rw [dictLookup_cons, if_neg hne]
      exact ih hd hmem'

theorem dictLookup_eq_none_iff (d : List (Str × α)) (r : Str) :
    dictLookup d r = none ↔ ∀ x ∈ d, x.1 ≠ r := by
  unfold dictLookup
  rw [Option.map_eq_none', List.find?_eq_none]
  constructor
  · intro h x hx
    simpa using h x hx
  · intro h x hx
    simpa using h x hx

theorem mem_of_dictLookup_eq_some (d : List (Str × α)) (r : Str) (n : α)
    (h : dictLookup d r = some n) : (r, n) ∈ d := by
  unfold dictLookup at h
  cases hf : List.find? (fun q => decide (q.1 = r)) d with
  | none => rw [hf] at h; simp at h
  | some q =>
    rw [hf] at h
    simp only [Option.map_some'] at h
    have hqr : q.1 = r := by simpa using List.find?_some hf
    have hmemq := List.mem_of_find?_eq_some hf
    have hq : q = (r, n) := by
      obtain ⟨q1, q2⟩ := q
      simp only at hqr h
      subst hqr
      rw [Option.some.injEq] at h
      subst h
      rfl
    rw [hq] at hmemq
    exact hmemq

theorem sortRootsDesc_dictLookup (l : List (Str × Str)) (r : Str)
    (hnd : l.Pairwise (fun a b => a.1 ≠ b.1)) :
    dictLookup (sortRootsDesc l) r = dictLookup l r := by
  have hperm := sortRootsDesc_perm l
  have hnd' : (sortRootsDesc l).Pairwise (fun a b => a.1 ≠ b.1) :=
    (hperm.pairwise_iff (fun h => Ne.symm h)).mpr hnd
  cases h : dictLookup l r with
  | some n =>
    exact dictLookup_eq_some_of_mem _ _ _ hnd'
      (hperm.mem_iff.mpr (mem_of_dictLookup_eq_some l r n h))
  | none =>
    rw [dictLookup_eq_none_iff] at h ⊢
    intro x hx
    exact h x (hperm.mem_iff.mp hx)

theorem dictLookup_dedupRoots (ps : List (Str × Str)) (r : Str) :
    dictLookup (dedupRoots ps) r =
      ((ps.find? fun q => decide (q.2 = r)).map Prod.fst) := by
  suffices h : ∀ acc, dictLookup (ps.foldl dedupStep acc) r =
      (dictLookup acc r).or ((ps.find? fun q => decide (q.2 = r)).map Prod.fst) by
    simpa [dedupRoots] using h []
  induction ps with
  | nil => intro acc; simp [Option.or]; cases dictLookup acc r <;> simp [Option.or]
  | cons p ps ih =>
    intro acc
    rw [List.foldl_cons, ih]
    have hstep : dictLookup (dedupStep acc p) r =
        (dictLookup acc r).or (if p.2 = r then some p.1 else none) := by
      unfold dedupStep
      by_cases hany : (acc.any fun q => decide (q.1 = p.2)) = true
      · rw [if_pos hany]
        by_cases hpr : p.2 = r
        · subst hpr
          rcases List.any_eq_true.mp hany with ⟨x, hx, hdec⟩
          have hx1 : x.1 = p.2 := by simpa using hdec
          cases hl : dictLookup acc p.2 with
          | some v => simp [Option.or]
          | none =>
            rw [dictLookup_eq_none_iff] at hl
            exact absurd hx1 (hl x hx)
        · cases dictLookup acc r <;> simp [hpr, Option.or]
      · rw [if_neg hany, dictLookup_append]
        have : dictLookup [(p.2, p.1)] r = if p.2 = r then some p.1 else none := by
          by_cases hpr : p.2 = r <;> simp [dictLookup_cons, dictLookup_nil, hpr]
        rw [this]
    rw [hstep, Option.or_assoc]
    have : ((if p.2 = r then some p.1 else none).or
        ((ps.find? fun q => decide (q.2 = r)).map Prod.fst)) =
        (((p :: ps).find? fun q => decide (q.2 = r)).map Prod.fst) := by
      by_cases hpr : p.2 = r <;> simp [List.find?_cons, hpr, Option.or]
    rw [this]

theorem dictLookup_buildRoots (ps : List (Str × Str)) (r : Str) :
    dictLookup (buildRoots ps) r =
      ((ps.find? fun q => decide (q.2 = r)).map Prod.fst) := by
  unfold buildRoots
  rw [sortRootsDesc_dictLookup _ _ (dedupRoots_keysNodup ps), dictLookup_dedupRoots]

theorem normalizePath_append (A B : List (Str × Str)) (p : Str) :
    normalizePath (A ++ B) p = normalizePath B (normalizePath A p) := by
  simp [normalizePath, List.foldl_append]

theorem normalizePath_cons (kv : Str × Str) (B : List (Str × Str)) (p : Str) :
    normalizePath (kv :: B) p = normalizePath B (pyReplace kv.1 (tokenOf kv.2) p) := rfl

/-- Claim C2: For every path lying under a registered install root, `normalize`
substitutes the token of the longest registered root path that matches: with
`roots = buildRoots ps` (deduplicated path→name, first name wins, ordered by
descending path length), if `(r2, n2)` is registered, `r1` is a registered
proper prefix of `r2`, and `path` starts with `r2` while no other registered
root of length ≥ `r2` occurs in `path`, then the normalized path starts with
the token `<n2>` of the deeper root, never the shorter one's token.
Moreover the mapping registers, for every root path, the first symbolic name
given for it (`first name wins`). -/
theorem C2_longest_registered_root_wins (ps : List (Str × Str))
    (r1 n1 r2 n2 tl path : Str)
    (h1 : (r2, n2) ∈ buildRoots ps)
    (h2 : (r1, n1) ∈ buildRoots ps)
    (h3 : r1 <+: r2) (h3' : r1 ≠ r2)
    (h4 : path = r2 ++ tl)
    (h5 : ∀ rn ∈ buildRoots ps, rn.1 ≠ r2 → r2.length ≤ rn.1.length →
      occursIn rn.1 path = false)
    (h6 : ∀ rn ∈ buildRoots ps, (rn.1 : Str).head? = some '/')
    (h7 : '/' ∉ n2) :
    tokenOf n2 <+: normalizePath (buildRoots ps) path
    ∧ ∀ r : Str, dictLookup (buildRoots ps) r =
        ((ps.find? fun q => decide (q.2 = r)).map Prod.fst) := by
  obtain ⟨A, B, hAB⟩ := List.append_of_mem h1
  have hsort := buildRoots_sorted ps
  have hnod := buildRoots_keysNodup ps
  rw [hAB] at hsort hnod
  rcases List.pairwise_append.mp hsort with ⟨_, _, hcrossLen⟩
  rcases List.pairwise_append.mp hnod with ⟨_, _, hcrossNe⟩
  have hA : ∀ kv ∈ A, occursIn kv.1 path = false := by
    intro kv hkv
    refine h5 kv ?_ ?_ ?_
    · rw [hAB]; exact List.mem_append_left _ hkv
    · exact hcrossNe kv hkv (r2, n2) (List.mem_cons_self _ _)
    · exact hcrossLen kv hkv (r2, n2) (List.mem_cons_self _ _)
  have hr2ne : r2 ≠ [] := by
    have hh := h6 (r2, n2) h1
    intro hnil
    rw [hnil] at hh
    simp [List.head?] at hh
  have htok : ∀ c ∈ tokenOf n2, c ≠ '/' := by
    intro c hc
    rcases List.mem_cons.mp hc with rfl | hc'
    · decide
    · rcases List.mem_append.mp hc' with hcn | hcgt
      · exact fun he => h7 (he ▸ hcn)
      · have : c = '>' := by simpa using hcgt
        subst this
        decide
  have hB : ∀ kv ∈ B, (kv.1 : Str).head? = some '/' := fun kv hkv =>
    h6 kv (by rw [hAB]; exact List.mem_append_right _ (List.mem_cons_of_mem _ hkv))
  constructor
  · rw [hAB, normalizePath_append, normalizePath_no_occurs A path hA,
      normalizePath_cons, h4]
    show tokenOf n2 <+: normalizePath B (pyReplace r2 (tokenOf n2) (r2 ++ tl))
    rw [pyReplace_front _ _ _ hr2ne,
      normalizePath_token_front B (tokenOf n2) htok _ hB]
    exact ⟨_, rfl⟩
  · exact fun r => dictLookup_buildRoots ps r

/-- Witness for C2: `/usr/lib/python3.11` and `/usr/lib` both registered (the
former under two names, first one wins); a path under the deeper root
resolves to `<purelib>`, and the mapping keeps the first name `purelib`
for the deeper path. -/
theorem C2_witness :
    tokenOf "purelib".toList <+:
      normalizePath
        (buildRoots
          [("purelib".toList, "/usr/lib/python3.11".toList),
           ("plat".toList, "/usr/lib/python3.11".toList),
           ("base".toList, "/usr/lib".toList)])
        ("/usr/lib/python3.11".toList ++ "/site-packages/foo.py".toList)
    ∧ dictLookup
        (buildRoots
          [("purelib".toList, "/usr/lib/python3.11".toList),
           ("plat".toList, "/usr/lib/python3.11".toList),
           ("base".toList, "/usr/lib".toList)])
        "/usr/lib/python3.11".toList = some "purelib".toList := by
  have h := C2_longest_registered_root_wins
    [("purelib".toList, "/usr/lib/python3.11".toList),
     ("plat".toList, "/usr/lib/python3.11".toList),
     ("base".toList, "/usr/lib".toList)]
    "/usr/lib".toList "base".toList "/usr/lib/python3.11".toList "purelib".toList
    "/site-packages/foo.py".toList
    ("/usr/lib/python3.11".toList ++ "/site-packages/foo.py".toList)
    (by decide) (by decide) (by decide) (by decide) (by decide)
    (by decide) (by decide) (by decide)
  refine ⟨h.1, ?_⟩
  rw [h.2 "/usr/lib/python3.11".toList]
  decide

/-! Lemmas: Case lemmas for `version` -/

theorem version_versionAttr_versions (st : VState) (name : Str) (m : PyModule)
    (roots : List (Str × Str)) (full : Bool) (v : Str)
    (hv : m.versionAttr = some v) :
    (version st name m roots full).versions = dictSet st.versions name v := by
  unfold version
  cases hf : m.fileAttr with
  | none => simp [hv]
  | some op =>
    cases op with
    | none => simp [hv]
    | some p0 =>
      by_cases hp : (('/' :: []).isPrefixOf (normalizePath roots p0) : Bool) = true <;>
        simp [hv, hp]

theorem version_stdlib_versions (st : VState) (name : Str) (m : PyModule)
    (roots : List (Str × Str)) (full : Bool) (p0 : Str)
    (hv : m.versionAttr = none) (hf : m.fileAttr = some (some p0))
    (hstd : stdlibTok.isPrefixOf (normalizePath roots p0) = true) :
    (version st name m roots full).versions = st.versions := by
  unfold version
  by_cases hp : (('/' :: []).isPrefixOf (normalizePath roots p0) : Bool) = true <;>
    simp [hv, hf, hp, hstd]

theorem version_full_path_versions (st : VState) (name : Str) (m : PyModule)
    (roots : List (Str × Str)) (p0 : Str)
    (hv : m.versionAttr = none) (hf : m.fileAttr = some (some p0))
    (hstd : stdlibTok.isPrefixOf (normalizePath roots p0) = false) :
    (version st name m roots true).versions =
      dictSet st.versions name (normalizePath roots p0) := by
  unfold version
  by_cases hp : (('/' :: []).isPrefixOf (normalizePath roots p0) : Bool) = true <;>
    simp [hv, hf, hp, hstd]

theorem version_summary_raw_versions (st : VState) (name : Str) (m : PyModule)
    (roots : List (Str × Str)) (p0 : Str)
    (hv : m.versionAttr = none) (hf : m.fileAttr = some (some p0))
    (hstd : stdlibTok.isPrefixOf (normalizePath roots p0) = false)
    (hlt : (('<' :: []) : Str).isPrefixOf (normalizePath roots p0) = false) :
    (version st name m roots false).versions =
      dictSet st.versions name (dotsName (normalizePath roots p0)) := by
  unfold version
  by_cases hp : (('/' :: []).isPrefixOf (normalizePath roots p0) : Bool) = true <;>
    simp [hv, hf, hp, hstd, hlt]

theorem version_summary_token_versions (st : VState) (name : Str) (m : PyModule)
    (roots : List (Str × Str)) (p0 : Str)
    (hv : m.versionAttr = none) (hf : m.fileAttr = some (some p0))
    (hstd : stdlibTok.isPrefixOf (normalizePath roots p0) = false)
    (hlt : (('<' :: []) : Str).isPrefixOf (normalizePath roots p0) = true) :
    (version st name m roots false).versions = st.versions := by
  unfold version
  by_cases hp : (('/' :: []).isPrefixOf (normalizePath roots p0) : Bool) = true <;>
    simp [hv, hf, hp, hstd, hlt]

theorem version_no_path_versions (st : VState) (name : Str) (m : PyModule)
    (roots : List (Str × Str)) (full : Bool)
    (hv : m.versionAttr = none)
    (hf : m.fileAttr = none ∨ m.fileAttr = some none) :
    (version st name m roots full).versions = st.versions := by
  unfold version
  rcases hf with hf | hf <;> simp [hv, hf]

theorem version_paths (st : VState) (name : Str) (m : PyModule)
    (roots : List (Str × Str)) (full : Bool) :
    (version st name m roots full).paths =
      match m.fileAttr with
      | some (some p0) =>
        if ('/' :: []).isPrefixOf (normalizePath roots p0) then
          setAdd st.paths (name, normalizePath roots p0)
        else st.paths
      | _ => st.paths := by
  unfold version
  cases hf : m.fileAttr with
  | none => cases hv : m.versionAttr <;> simp [hv]
  | some op =>
    cases op with
    | none => cases hv : m.versionAttr <;> simp [hv]
    | some p0 =>
      cases hv : m.versionAttr with
      | some v =>
        by_cases hp : (('/' :: []).isPrefixOf (normalizePath roots p0) : Bool) = true <;>
          simp [hv, hp]
      | none =>
        by_cases hp : (('/' :: []).isPrefixOf (normalizePath roots p0) : Bool) = true <;>
          by_cases hstd : (stdlibTok.isPrefixOf (normalizePath roots p0) : Bool) = true <;>
            by_cases hlt : ((('<' :: []) : Str).isPrefixOf (normalizePath roots p0) : Bool) = true <;>
              cases full <;> simp [hv, hp, hstd, hlt]

theorem version_versions_cases (st : VState) (name : Str) (m : PyModule)
    (roots : List (Str × Str)) (full : Bool) :
    (version st name m roots full).versions = st.versions ∨
      ∃ w, (version st name m roots full).versions = dictSet st.versions name w := by
  unfold version
  cases hf : m.fileAttr with
  | none => cases hv : m.versionAttr <;> simp [hv]
  | some op =>
    cases op with
    | none => cases hv : m.versionAttr <;> simp [hv]
    | some p0 =>
      cases hv : m.versionAttr with
      | some v =>
        by_cases hp : (('/' :: []).isPrefixOf (normalizePath roots p0) : Bool) = true <;>
          simp [hv, hp]
      | none =>
        by_cases hp : (('/' :: []).isPrefixOf (normalizePath roots p0) : Bool) = true <;>
          by_cases hstd : (stdlibTok.isPrefixOf (normalizePath roots p0) : Bool) = true <;>
            by_cases hlt : ((('<' :: []) : Str).isPrefixOf (normalizePath roots p0) : Bool) = true <;>
              cases full <;> simp [hv, hp, hstd, hlt]

theorem version_versions_frame (st : VState) (name n' : Str) (m : PyModule)
    (roots : List (Str × Str)) (full : Bool) (hne : n' ≠ name) :
    dictLookup (version st name m roots full).versions n' = dictLookup st.versions n' := by
  rcases version_versions_cases st name m roots full with h | ⟨w, h⟩
  · rw [h]
  · rw [h, dictLookup_dictSet_ne _ _ _ _ hne]

/-! Lemmas: Lemmas about the enumeration passes of `module_versions` -/

theorem insertAscBy_perm (lt : α → α → Bool) (x : α) (l : List α) :
    (insertAscBy lt x l).Perm (x :: l) := by
  induction l with
  | nil => exact List.Perm.refl _
  | cons y ys ih =>
    by_cases h : lt y x = true
    · simp only [insertAscBy, if_pos h]
      exact (ih.cons y).trans (List.Perm.swap x y ys)
    · simp only [insertAscBy, if_neg h]
      exact List.Perm.refl _

theorem sortAscBy_perm (lt : α → α → Bool) (l : List α) : (sortAscBy lt l).Perm l := by
  induction l with
  | nil => exact List.Perm.refl _
  | cons x xs ih => exact (insertAscBy_perm lt x (sortAscBy lt xs)).trans (ih.cons x)

theorem sortByName_perm (mods : List (Str × PyModule)) : (sortByName mods).Perm mods :=
  sortAscBy_perm _ mods

theorem splitOnDotAux_no_dot (s : Str) :
    (∀ c ∈ s, c ≠ '.') → ∀ cur : Str, ∃ t, splitOnDotAux s cur = [t] := by
  induction s with
  | nil => intro _ cur; exact ⟨cur.reverse, rfl⟩
  | cons c rest ih =>
    intro h cur
    have hc : c ≠ '.' := h c (List.mem_cons_self c rest)
    simp only [splitOnDotAux, if_neg hc]
    exact ih (fun x hx => h x (List.mem_cons_of_mem c hx)) (c :: cur)

theorem condPass2_false_of_no_dot (km : Str × PyModule)
    (h : (km.1 : Str).contains '.' = false) :
    ∀ s : VState, condPass2 s km = false := by
  intro s
  have hnd : ∀ c ∈ (km.1 : Str), c ≠ '.' := by
    intro c hc he
    rw [List.contains_eq_any_beq] at h
    have hx : ((km.1 : Str).any fun x => '.' == x) = true :=
      List.any_eq_true.mpr ⟨c, hc, by simp [he]⟩
    rw [hx] at h
    cases h
  obtain ⟨t, ht⟩ := splitOnDotAux_no_dot km.1 hnd []
  unfold condPass2 splitOnDot
  rw [ht]

theorem passFold_frame (roots : List (Str × Str)) (full : Bool)
    (cond : VState → (Str × PyModule) → Bool) (mods : List (Str × PyModule))
    (n : Str)
    (h : ∀ km ∈ mods, km.1 ≠ n ∨ ∀ s : VState, cond s km = false) :
    ∀ st : VState,
      dictLookup (passFold roots full cond mods st).versions n =
        dictLookup st.versions n := by
  induction mods with
  | nil => intro st; rfl
  | cons km rest ih =>
    intro st
    show dictLookup (passFold roots full cond rest
        (if cond st km then version st km.1 km.2 roots full else st)).versions n = _
    rw [ih (fun x hx => h x (List.mem_cons_of_mem km hx))]
    by_cases hc : cond st km = true
    · rcases h km (List.mem_cons_self km rest) with hne | hfalse
      · rw [if_pos hc]
        exact version_versions_frame st km.1 n km.2 roots full (fun he => hne he.symm)
      · rw [hfalse st] at hc
        cases hc
    · rw [if_neg hc]

theorem passFold_hit (roots : List (Str × Str)) (full : Bool)
    (cond : VState → (Str × PyModule) → Bool) (mods : List (Str × PyModule))
    (n : Str) (m : PyModule) (v : Str)
    (hnodup : (mods.map Prod.fst).Nodup)
    (hmem : (n, m) ∈ mods)
    (hcond : ∀ s : VState, cond s (n, m) = true)
    (hv : m.versionAttr = some v) :
    ∀ st : VState,
      dictLookup (passFold roots full cond mods st).versions n = some v := by
  induction mods with
  | nil => cases hmem
  | cons km rest ih =>
    intro st
    obtain ⟨k0, m0⟩ := km
    have hnodup' : (k0 :: rest.map Prod.fst).Nodup := by
      rw [List.map_cons] at hnodup
      exact hnodup
    rcases List.nodup_cons.mp hnodup' with ⟨hk0, hrest⟩
    show dictLookup (passFold roots full cond rest
        (if cond st (k0, m0) then version st k0 m0 roots full else st)).versions n = _
    rcases List.mem_cons.mp hmem with heq | hmem'
    · injection heq with he1 he2
      rw [← he1, ← he2]
      rw [← he1] at hk0
      rw [hcond st, if_pos rfl]
      have hframe : ∀ km ∈ rest, (km : Str × PyModule).1 ≠ n ∨
          ∀ s : VState, cond s km = false := by
        intro x hx
        exact Or.inl (fun he => hk0 (he ▸ List.mem_map_of_mem Prod.fst hx))
      rw [passFold_frame roots full cond rest n hframe]
      rw [version_versionAttr_versions st n m roots full v hv]
      exact dictLookup_dictSet_self _ _ _
    · have hne : k0 ≠ n := by
        intro he
        subst he
        exact hk0 (List.mem_map_of_mem Prod.fst hmem')
      have ihv := ih hrest hmem'
      by_cases hc : cond st (k0, m0) = true
      · rw [if_pos hc]
        exact ihv _
      · rw [if_neg hc]
        exact ihv _

/-- Claim C1: For every loaded component that exposes a version attribute, the
value emitted for it in `module_versions` equals that attribute exactly, in
both SUMMARY and FULL mode (`full` is universally quantified), and no path
substitution is applied to what is emitted: at the `version` level the entry
becomes exactly `v`, and at the `module_versions` level the top-level
component's entry in the returned versions dict is exactly `v`. -/
theorem C1_version_attribute_exact
    (st : VState) (name : Str) (m : PyModule) (roots : List (Str × Str)) (full : Bool)
    (v : Str) (probe : GitProbe) (sysPairs : List (Str × Str))
    (modules : List (Str × PyModule)) (vs : List (Str × Str))
    (gv : List (Str × RepoRecord))
    (hv : m.versionAttr = some v)
    (hnodot : (name : Str).contains '.' = false)
    (hnodup : (modules.map Prod.fst).Nodup)
    (hmem : (name, m) ∈ modules)
    (hok : module_versions probe sysPairs modules full = .ok (vs, gv)) :
    dictLookup (version st name m roots full).versions name = some v
    ∧ dictLookup vs name = some v := by
  constructor
  · rw [version_versionAttr_versions st name m roots full v hv]
    exact dictLookup_dictSet_self _ _ _
  · simp only [module_versions] at hok
    split at hok
    · injection hok with hpair
      injection hpair with h1 h2
      subst h1
      have hpass2 : ∀ km ∈ sortByName modules, (km : Str × PyModule).1 ≠ name ∨
          ∀ s : VState, condPass2 s km = false := by
        intro km hkm
        by_cases he : (km : Str × PyModule).1 = name
        · refine Or.inr (condPass2_false_of_no_dot km ?_)
          rw [he]
          exact hnodot
        · exact Or.inl he
      have hnodup' : ((sortByName modules).map Prod.fst).Nodup :=
        ((sortByName_perm modules).map Prod.fst).nodup_iff.mpr hnodup
      have hmem' : (name, m) ∈ sortByName modules :=
        (sortByName_perm modules).mem_iff.mpr hmem
      have hcond : ∀ s : VState, condPass1 s (name, m) = true := by
        intro s
        have hmemdot : '.' ∉ name := by
          intro hd
          rw [List.contains_eq_any_beq] at hnodot
          have hx : (name.any fun x => '.' == x) = true :=
            List.any_eq_true.mpr ⟨'.', hd, by simp⟩
          rw [hx] at hnodot
          cases hnodot
        simp [condPass1, hmemdot]
      rw [passFold_frame _ _ _ _ _ hpass2]
      exact passFold_hit _ _ condPass1 _ name m v hnodup' hmem' hcond hv _
    · exact Except.noConfusion hok

/-- Witness for C1: a module with `__version__ = "2.31.0"` and a local
absolute path is reported with exactly that version string, both directly by
`version` and in the SUMMARY `module_versions` output. -/
theorem C1_witness :
    dictLookup
      (version ⟨[], [], []⟩ "requests".toList
        ⟨some (some "/site/requests/x.py".toList), some "2.31.0".toList⟩ [] false).versions
      "requests".toList = some "2.31.0".toList
    ∧ dictLookup [("requests".toList, "2.31.0".toList)] "requests".toList =
        some "2.31.0".toList :=
  C1_version_attribute_exact
    ⟨[], [], []⟩ "requests".toList
    ⟨some (some "/site/requests/x.py".toList), some "2.31.0".toList⟩ [] false
    "2.31.0".toList (fun _ => none)
    [("stdlib".toList, "/usr/lib/python3.12".toList)]
    [("requests".toList, ⟨some (some "/site/requests/x.py".toList), some "2.31.0".toList⟩)]
    [("requests".toList, "2.31.0".toList)] []
    (by decide) (by decide) (by decide) (by decide) (by rfl)

/-- Claim C3, amended: For a component without a version attribute whose
normalized path does not begin with the stdlib token: in FULL mode the
normalized path is emitted verbatim; in SUMMARY mode, if the normalized path
does not start with `'<'` the emitted value is `".../" + basename`; but if the
normalized path starts with a root token, the component is omitted from
`module_versions` entirely (the claim's `the token form is emitted directly`
does not hold: the code has no such branch in SUMMARY mode). -/
theorem C3_pathonly_emission (st : VState) (name : Str) (m : PyModule)
    (roots : List (Str × Str)) (p0 : Str)
    (hv : m.versionAttr = none)
    (hf : m.fileAttr = some (some p0))
    (hstd : stdlibTok.isPrefixOf (normalizePath roots p0) = false) :
    dictLookup (version st name m roots true).versions name =
      some (normalizePath roots p0)
    ∧ ((('<' :: []) : Str).isPrefixOf (normalizePath roots p0) = false →
        dictLookup (version st name m roots false).versions name =
          some (dotsName (normalizePath roots p0)))
    ∧ ((('<' :: []) : Str).isPrefixOf (normalizePath roots p0) = true →
        (version st name m roots false).versions = st.versions) := by
  refine ⟨?_, fun hlt => ?_, fun hlt => ?_⟩
  · rw [version_full_path_versions st name m roots p0 hv hf hstd]
    exact dictLookup_dictSet_self _ _ _
  · rw [version_summary_raw_versions st name m roots p0 hv hf hstd hlt]
    exact dictLookup_dictSet_self _ _ _
  · exact version_summary_token_versions st name m roots p0 hv hf hstd hlt

/-- Counterexample to C3 as stated: a version-less component whose path
normalizes to `<purelib>/x.py` (a non-stdlib root token) emits NOTHING in
SUMMARY mode — the versions dict stays empty — whereas the claim says the
token form `<purelib>/x.py` is emitted directly. -/
theorem C3_counterexample :
    normalizePath [("/usr/pl".toList, "purelib".toList)] "/usr/pl/x.py".toList =
      "<purelib>/x.py".toList
    ∧ (version ⟨[], [], []⟩ "m".toList ⟨some (some "/usr/pl/x.py".toList), none⟩
        [("/usr/pl".toList, "purelib".toList)] false).versions = [] := by decide

/-- Witness for C3 (amended): the spec's own example `/opt/devwork/foo/mod.py`
(no root match) appears verbatim in FULL mode and as `.../mod.py` in SUMMARY
mode. -/
theorem C3_witness :
    dictLookup (version ⟨[], [], []⟩ "mod".toList
        ⟨some (some "/opt/devwork/foo/mod.py".toList), none⟩ [] true).versions
      "mod".toList = some "/opt/devwork/foo/mod.py".toList
    ∧ dictLookup (version ⟨[], [], []⟩ "mod".toList
        ⟨some (some "/opt/devwork/foo/mod.py".toList), none⟩ [] false).versions
      "mod".toList = some ".../mod.py".toList := by
  have h := C3_pathonly_emission ⟨[], [], []⟩ "mod".toList
    ⟨some (some "/opt/devwork/foo/mod.py".toList), none⟩ []
    "/opt/devwork/foo/mod.py".toList (by decide) (by decide) (by decide)
  refine ⟨?_, ?_⟩
  · rw [h.1]
    decide
  · rw [h.2.1 (by decide)]
    decide

/-- Claim C4, amended: A pair `(name, p)` is added to the candidate-path set
exactly when the component has a resolved file path whose normalized form
still starts with `'/'` — regardless of whether the component has a version
attribute, because the path block at lines 70-77 runs before the
`__version__` check at lines 79-83.  Token-rewritten paths are indeed never
added. -/
theorem C4_candidate_path_characterization (st : VState) (name : Str)
    (m : PyModule) (roots : List (Str × Str)) (full : Bool) (q : Str × Str) :
    q ∈ (version st name m roots full).paths ↔
      (q ∈ st.paths ∨ ∃ p0, m.fileAttr = some (some p0) ∧
        q = (name, normalizePath roots p0) ∧
        ((('/' :: []) : Str).isPrefixOf (normalizePath roots p0)) = true) := by
  rw [version_paths]
  cases hf0 : m.fileAttr with
  | none => simp
  | some op =>
    cases op with
    | none => simp
    | some p0 =>
      by_cases hp : ((('/' :: []) : Str).isPrefixOf (normalizePath roots p0)) = true
      · have hp' : (('/' :: []) : Str) <+: normalizePath roots p0 :=
          (isPrefixOf_iff_pref _ _).mp hp
        simp [hp, mem_setAdd, hp']
      · simp [hp]
        intro _ hpre
        exact absurd ((isPrefixOf_iff_pref _ _).mpr hpre) hp

/-- Counterexample to C4 as stated: a component resolved by its version
attribute (`__version__ = "1.0"`) with an unmatched absolute path still
contributes its candidate pair, though the claim says such components
contribute no candidate pair. -/
theorem C4_counterexample :
    (⟨some (some "/home/dev/foo/bar.py".toList), some "1.0".toList⟩ :
        PyModule).versionAttr = some "1.0".toList
    ∧ ("foo".toList, "/home/dev/foo/bar.py".toList) ∈
        (version ⟨[], [], []⟩ "foo".toList
          ⟨some (some "/home/dev/foo/bar.py".toList), some "1.0".toList⟩ []
          false).paths := by decide

/-- Witness for C4 (amended): a raw absolute path is added; a token-rewritten
path is not. -/
theorem C4_witness :
    (("m".toList, "/opt/devwork/m.py".toList) ∈
      (version ⟨[], [], []⟩ "m".toList
        ⟨some (some "/opt/devwork/m.py".toList), none⟩ [] false).paths
      ↔ True)
    ∧ ((("n".toList, "<purelib>/n.py".toList) ∈
        (version ⟨[], [], []⟩ "n".toList
          ⟨some (some "/usr/pl/n.py".toList), none⟩
          [("/usr/pl".toList, "purelib".toList)] false).paths
      ↔ False)) := by
  constructor
  · rw [C4_candidate_path_characterization]
    simp only [iff_true]
    exact Or.inr ⟨"/opt/devwork/m.py".toList, by decide, by decide, by decide⟩
  · rw [C4_candidate_path_characterization]
    simp only [iff_false]
    rintro (h | ⟨p0, hp0, hq, hpre⟩)
    · cases h
    · injection hp0 with h1
      injection h1 with h2
      subst h2
      revert hpre
      decide

/-- Claim C9, amended: Every component *without a version attribute* whose
resolved path, after normalization, begins with the standard-library token is
absent from `module_versions` (the versions dict is unchanged), in both
SUMMARY and FULL mode.  The version-attribute proviso is necessary: the
`__version__` check at lines 79-83 precedes the stdlib check at line 91. -/
theorem C9_stdlib_skipped (st : VState) (name : Str) (m : PyModule)
    (roots : List (Str × Str)) (full : Bool) (p0 : Str)
    (hv : m.versionAttr = none)
    (hf : m.fileAttr = some (some p0))
    (hstd : stdlibTok.isPrefixOf (normalizePath roots p0) = true) :
    (version st name m roots full).versions = st.versions :=
  version_stdlib_versions st name m roots full p0 hv hf hstd

/-- Counterexample to C9 as stated: a stdlib-path module that *does* expose
`__version__` (as e.g. `re` does) IS present in `module_versions`, though the
claim demands it be entirely absent. -/
theorem C9_counterexample :
    stdlibTok.isPrefixOf
      (normalizePath [("/usr/lib/py".toList, "stdlib".toList)]
        "/usr/lib/py/re.py".toList) = true
    ∧ dictLookup (version ⟨[], [], []⟩ "re".toList
        ⟨some (some "/usr/lib/py/re.py".toList), some "2.2.1".toList⟩
        [("/usr/lib/py".toList, "stdlib".toList)] false).versions "re".toList =
      some "2.2.1".toList := by decide

/-- Witness for C9 (amended): a version-less module under the stdlib root is
not reported. -/
theorem C9_witness :
    (version ⟨[], [], []⟩ "os".toList
      ⟨some (some "/usr/lib/py/os.py".toList), none⟩
      [("/usr/lib/py".toList, "stdlib".toList)] false).versions = [] :=
  C9_stdlib_skipped ⟨[], [], []⟩ "os".toList
    ⟨some (some "/usr/lib/py/os.py".toList), none⟩
    [("/usr/lib/py".toList, "stdlib".toList)] false "/usr/lib/py/os.py".toList
    (by decide) (by decide) (by decide)

/-- Claim C5, amended: If reading repository state for one candidate raises a
`ValueError` after an enclosing repository was found, the failure is logged
and that single component's record is omitted from `git_versions`, and
probing continues with the next candidate — the run over the remaining
candidates is exactly the run without the failing one.  (A failure of any
other exception type, however, propagates and aborts the whole probe: the
handler at line 61 catches `ValueError` only.) -/
theorem C5_valueerror_skips_candidate (probe : GitProbe) (full : Bool)
    (name path : Str) (rest : List (Str × Str)) (msg : Str)
    (hval : probe path = some (.error (.valueError msg))) :
    check_for_git probe ((name, path) :: rest) full =
      check_for_git probe rest full := by
  show check_for_git_go probe full [] ((name, path) :: rest) = _
  unfold check_for_git_go
  rw [hval]
  rfl


/-- Counterexample to C5 as stated: a non-`ValueError` failure while reading
repository state aborts the whole probe — the result is the propagated
exception, and the perfectly probeable second candidate's record is lost,
contradicting `no failure inside a single repository probe aborts the overall
report`. -/
theorem C5_counterexample :
    check_for_git probeOtherExc
      [("a".toList, "/bad/x.py".toList), ("b".toList, "/good/y.py".toList)] false =
      .error "boom".toList := by rfl


/-- Witness for C5 (amended): the `ValueError` candidate is dropped and the
probe continues, producing exactly the run over the remaining candidates. -/
theorem C5_witness :
    check_for_git probeValueErr
      [("a".toList, "/r/x.py".toList), ("b".toList, "/s/y.py".toList)] false =
      check_for_git probeValueErr [("b".toList, "/s/y.py".toList)] false :=
  C5_valueerror_skips_candidate probeValueErr false "a".toList "/r/x.py".toList
    [("b".toList, "/s/y.py".toList)] "corrupt index".toList (by rfl)

/-- Claim C6, amended: Provided the `nvsmi` helper module is importable, the
GPU probe has a three-outcome contract and never raises: management binary
not on the PATH → the fixed sentinel string; binary present but the
invocation fails with `CalledProcessError` → the decoded, stripped error
output as text; otherwise → one record per detected accelerator.  (If the
`nvsmi` package itself is missing, the unguarded `import nvsmi` at line 162
raises out of `gpu_info`.) -/
theorem C6_gpu_contract (env : GpuEnv) (hinst : env.nvsmiInstalled = true) :
    (∃ r, gpu_info env = .ok r)
    ∧ (env.smiOnPath = false → gpu_info env = .ok (.text smiNotFound))
    ∧ (∀ out, env.smiOnPath = true → env.runGpus = .error out →
        gpu_info env = .ok (.text (pyStrip out)))
    ∧ (∀ gs, env.smiOnPath = true → env.runGpus = .ok gs →
        gpu_info env = .ok (.records gs)) := by
  refine ⟨?_, fun hs => ?_, fun out hs hrun => ?_, fun gs hs hrun => ?_⟩
  · unfold gpu_info
    rw [hinst]
    cases hs : env.smiOnPath with
    | false => exact ⟨.text smiNotFound, rfl⟩
    | true =>
      cases hrun : env.runGpus with
      | error out => exact ⟨.text (pyStrip out), by simp [hrun]⟩
      | ok gs => exact ⟨.records gs, by simp [hrun]⟩
  · unfold gpu_info
    rw [hinst, hs]
    rfl
  · unfold gpu_info
    rw [hinst, hs, hrun]
    rfl
  · unfold gpu_info
    rw [hinst, hs, hrun]
    rfl

/-- Counterexample to C6 as stated: on a host where the `nvsmi` helper module
is not importable, `gpu_info` raises (`ModuleNotFoundError` escapes) instead
of returning any value — contradicting `never raises`. -/
theorem C6_counterexample :
    gpu_info ⟨false, false, .ok []⟩ = .error nvsmiImportError := by rfl

/-- Witness for C6 (amended): with the module importable, the binary absent
on the PATH yields exactly the sentinel, and a failing invocation yields the
stripped captured output. -/
theorem C6_witness :
    gpu_info ⟨true, false, .ok []⟩ = .ok (.text smiNotFound)
    ∧ gpu_info ⟨true, true, .error "  NVML failure \n".toList⟩ =
        .ok (.text "NVML failure".toList) := by
  constructor
  · exact (C6_gpu_contract ⟨true, false, .ok []⟩ rfl).2.1 rfl
  · have h := (C6_gpu_contract ⟨true, true, .error "  NVML failure \n".toList⟩ rfl).2.2.1
      "  NVML failure \n".toList rfl rfl
    rw [h]
    rfl

/-! Lemmas: C7: asset fingerprinting -/

theorem assets_info_go_lookup (env : AssetEnv) (paths : List Str) :
    ∀ (acc : List (Str × AssetRecord)) (p : Str),
      dictLookup (paths.foldl (assetStep env) acc) p =
        if p ∈ paths then
          some (match env.statRes p with
            | .error e => AssetRecord.errText e
            | .ok info =>
              AssetRecord.record info.size info.atimeIso info.mtimeIso info.ctimeIso
                info.md5
                (match env.peekRes p with
                 | .error _ => none
                 | .ok pk => some pk))
        else dictLookup acc p := by
  induction paths with
  | nil => intro acc p; simp
  | cons q rest ih =>
    intro acc p
    rw [List.foldl_cons, ih]
    by_cases hp : p ∈ rest
    · have : p ∈ q :: rest := List.mem_cons_of_mem q hp
      rw [if_pos hp, if_pos this]
    · rw [if_neg hp]
      by_cases hpq : p = q
      · subst hpq
        rw [if_pos (List.mem_cons_self p rest)]
        unfold assetStep
        cases hs : env.statRes p with
        | error e => rw [dictLookup_dictSet_self]
        | ok info =>
          cases hpk : env.peekRes p with
          | error u => simp [dictLookup_dictSet_self]
          | ok pk => simp [dictLookup_dictSet_self]
      · have : p ∉ q :: rest := by
          intro hmem
          rcases List.mem_cons.mp hmem with he | hm
          · exact hpq he
          · exact hp hm
        rw [if_neg this]
        unfold assetStep
        cases hs2 : env.statRes q with
        | error e2 => exact dictLookup_dictSet_ne _ _ _ _ hpq
        | ok info2 => exact dictLookup_dictSet_ne _ _ _ _ hpq

/-- **C7.** For every asset path given to the fingerprinter: an I/O failure
while statting or hashing makes the entry for that path the plain captured
error text, and the batch continues (every listed path still gets its entry,
determined solely by its own probe outcomes); after a successful fingerprint,
an unavailable or raising `peek` collaborator merely omits the `peek` field
(`none`) and never turns the record into an error. -/
theorem C7_assets_per_path (env : AssetEnv) (paths : List Str) (p : Str)
    (hp : p ∈ paths) :
    dictLookup (assets_info env paths) p =
      some (match env.statRes p with
        | .error e => AssetRecord.errText e
        | .ok info =>
          AssetRecord.record info.size info.atimeIso info.mtimeIso info.ctimeIso
            info.md5
            (match env.peekRes p with
             | .error _ => none
             | .ok pk => some pk)) := by
  unfold assets_info
  rw [assets_info_go_lookup env paths [] p, if_pos hp]


/-- Witness for C7: the missing file's entry is the plain error text, the
other file's record is intact with the peek field simply omitted. -/
theorem C7_witness :
    dictLookup (assets_info assetEnvW ["/missing.bin".toList, "/data.bin".toList])
      "/missing.bin".toList = some (.errText "No such file or directory".toList)
    ∧ dictLookup (assets_info assetEnvW ["/missing.bin".toList, "/data.bin".toList])
        "/data.bin".toList =
      some (.record 5 "A".toList "M".toList "C".toList "d41d8".toList none) := by
  constructor
  · rw [C7_assets_per_path assetEnvW _ _ (by decide)]
    rfl
  · rw [C7_assets_per_path assetEnvW _ _ (by decide)]
    rfl

/-! Lemmas: C8: the platform post-filter -/

theorem mem_dropAllEmpty (r : List (Str × PVal)) (k : Str) (v : PVal) :
    (k, v) ∈ dropAllEmpty r ↔
      ((k, v) ∈ r ∧ ∀ xs, v = PVal.seq xs → all_empty xs = false) := by
  induction r with
  | nil => simp [dropAllEmpty]
  | cons kv rest ih =>
    obtain ⟨k0, v0⟩ := kv
    cases v0 with
    | seq xs =>
      by_cases he : all_empty xs = true
      · rw [show dropAllEmpty ((k0, PVal.seq xs) :: rest) = dropAllEmpty rest by
          simp [dropAllEmpty, he]]
        rw [ih]
        constructor
        · rintro ⟨hm, hP⟩
          exact ⟨List.mem_cons_of_mem _ hm, hP⟩
        · rintro ⟨hm, hP⟩
          rcases List.mem_cons.mp hm with heq | hm'
          · injection heq with h1 h2
            rw [hP xs h2] at he
            cases he
          · exact ⟨hm', hP⟩
      · rw [show dropAllEmpty ((k0, PVal.seq xs) :: rest) =
            (k0, PVal.seq xs) :: dropAllEmpty rest by simp [dropAllEmpty, he]]
        constructor
        · intro hm
          rcases List.mem_cons.mp hm with heq | hm'
          · injection heq with h1 h2
            subst h1
            subst h2
            refine ⟨List.mem_cons_self _ _, ?_⟩
            intro xs' hxs'
            injection hxs' with hx
            rw [← hx]
            exact Bool.eq_false_iff.mpr he
          · rcases (ih).mp hm' with ⟨hm'', hP⟩
            exact ⟨List.mem_cons_of_mem _ hm'', hP⟩
        · rintro ⟨hm, hP⟩
          rcases List.mem_cons.mp hm with heq | hm'
          · rw [heq]
            exact List.mem_cons_self _ _
          · exact List.mem_cons_of_mem _ ((ih).mpr ⟨hm', hP⟩)
    | str s =>
      rw [show dropAllEmpty ((k0, PVal.str s) :: rest) =
          (k0, PVal.str s) :: dropAllEmpty rest from rfl]
      constructor
      · intro hm
        rcases List.mem_cons.mp hm with heq | hm'
        · injection heq with h1 h2
          subst h1
          subst h2
          refine ⟨List.mem_cons_self _ _, ?_⟩
          intro xs' hxs'
          cases hxs'
        · rcases (ih).mp hm' with ⟨hm'', hP⟩
          exact ⟨List.mem_cons_of_mem _ hm'', hP⟩
      · rintro ⟨hm, hP⟩
        rcases List.mem_cons.mp hm with heq | hm'
        · rw [heq]
          exact List.mem_cons_self _ _
        · exact List.mem_cons_of_mem _ ((ih).mpr ⟨hm', hP⟩)
    | other =>
      rw [show dropAllEmpty ((k0, PVal.other) :: rest) =
          (k0, PVal.other) :: dropAllEmpty rest from rfl]
      constructor
      · intro hm
        rcases List.mem_cons.mp hm with heq | hm'
        · injection heq with h1 h2
          subst h1
          subst h2
          refine ⟨List.mem_cons_self _ _, ?_⟩
          intro xs' hxs'
          cases hxs'
        · rcases (ih).mp hm' with ⟨hm'', hP⟩
          exact ⟨List.mem_cons_of_mem _ hm'', hP⟩
      · rintro ⟨hm, hP⟩
        rcases List.mem_cons.mp hm with heq | hm'
        · rw [heq]
          exact List.mem_cons_self _ _
        · exact List.mem_cons_of_mem _ ((ih).mpr ⟨hm', hP⟩)

/-- Claim C8, amended: The platform probe's post-filter removes exactly the
collected entries whose value is a list/tuple that `all_empty` deems composed
entirely of (possibly nested) empty strings; every other entry is kept —
including entries whose value is a plain empty string, which the claim said
are removed but which fail the `isinstance(v, (list, tuple))` guard at
line 155 and therefore survive. -/
theorem C8_platform_postfilter (probes : List (Str × Option PVal)) (k : Str)
    (v : PVal) :
    (k, v) ∈ platform_info probes ↔
      ((k, v) ∈ (probes.foldl
          (fun r kp => match kp.2 with | some w => dictSet r kp.1 w | none => r) [])
        ∧ ∀ xs, v = PVal.seq xs → all_empty xs = false) := by
  unfold platform_info
  exact mem_dropAllEmpty _ k v

/-- Counterexample to C8 as stated: an entry whose value is the empty string
(as `platform.processor()` returns on some hosts) is NOT removed by the
post-filter — it survives into the result, though the claim says every
empty-string entry is dropped. -/
theorem C8_counterexample :
    platform_info [("processor".toList, some (.str []))] =
      [("processor".toList, .str [])] := by rfl

/-- Witness for C8 (amended): an all-empty nested sequence is dropped, while
a sequence containing a non-empty string is kept. -/
theorem C8_witness :
    (("libver".toList, PVal.seq [.seq [.str []], .str []]) ∈
        platform_info [("libver".toList, some (.seq [.seq [.str []], .str []]))]
      ↔ False)
    ∧ (("archbits".toList, PVal.seq [.str "64bit".toList, .str []]) ∈
        platform_info [("archbits".toList, some (.seq [.str "64bit".toList, .str []]))]
      ↔ True) := by
  constructor
  · rw [C8_platform_postfilter]
    simp only [iff_false]
    rintro ⟨hm, hP⟩
    have := hP [.seq [.str []], .str []] rfl
    revert this
    decide
  · rw [C8_platform_postfilter]
    simp only [iff_true]
    refine ⟨?_, ?_⟩
    · show ("archbits".toList, PVal.seq [.str "64bit".toList, .str []]) ∈
        ([("archbits".toList, PVal.seq [.str "64bit".toList, .str []])] : List (Str × PVal))
      exact List.mem_cons_self _ _
    · intro xs hxs
      injection hxs with hx
      rw [← hx]
      decide

/-! Lemmas: C10: the repository ascent -/

theorem lastSlashIdx_none_iff (p : Str) : lastSlashIdx p = none ↔ '/' ∉ p := by
  induction p with
  | nil => simp [lastSlashIdx]
  | cons c rest ih =>
    unfold lastSlashIdx
    cases hr : lastSlashIdx rest with
    | some i =>
      simp only [List.mem_cons, not_or]
      constructor
      · intro h
        cases h
      · rintro ⟨h1, h2⟩
        have hnone : lastSlashIdx rest = none := ih.mpr h2
        rw [hnone] at hr
        cases hr
    | none =>
      have hnr : ('/' : Char) ∉ rest := ih.mp hr
      by_cases hc : c = '/'
      · subst hc
        simp
      · have hc' : ¬ (('/' : Char) = c) := fun h => hc h.symm
        simp [hc, hnr, hc']

theorem lastSlashIdx_decomp (p : Str) (j : Nat) (h : lastSlashIdx p = some j) :
    ∃ xs ys, p = xs ++ '/' :: ys ∧ xs.length = j ∧ '/' ∉ ys := by
  induction p generalizing j with
  | nil => cases h
  | cons c rest ih =>
    unfold lastSlashIdx at h
    cases hr : lastSlashIdx rest with
    | some i =>
      rw [hr] at h
      injection h with hj
      obtain ⟨xs, ys, hpe, hlen, hys⟩ := ih i hr
      refine ⟨c :: xs, ys, ?_, ?_, hys⟩
      · rw [hpe]
        rfl
      · rw [List.length_cons, hlen, hj]
    | none =>
      rw [hr] at h
      by_cases hc : c = '/'
      · rw [if_pos hc] at h
        injection h with hj
        subst hc
        exact ⟨[], rest, rfl, hj, (lastSlashIdx_none_iff rest).mp hr⟩
      · rw [if_neg hc] at h
        cases h

theorem rstripSlash_append_slash (t : Str) : rstripSlash (t ++ ['/']) = rstripSlash t := by
  simp [rstripSlash, List.dropWhile]

theorem rstripSlash_front (t : Str) : rstripSlash t <+: t := by
  have h := List.dropWhile_suffix (l := t.reverse) (fun c => decide (c = '/'))
  have h2 := List.reverse_prefix.mpr h
  simpa [rstripSlash] using h2

theorem rstripSlash_ne_nil (t : Str) (c : Char) (hc : c ∈ t) (hne : c ≠ '/') :
    rstripSlash t ≠ [] := by
  intro hnil
  have : t.reverse.dropWhile (fun x => decide (x = '/')) = [] := by
    have := congrArg List.reverse hnil
    simpa [rstripSlash] using this
  rw [List.dropWhile_eq_nil_iff] at this
  have := this c (List.mem_reverse.mpr hc)
  simp at this
  exact hne this

theorem rstripSlash_length_le (t : Str) : (rstripSlash t).length ≤ t.length := by
  have h := (List.dropWhile_suffix (l := t.reverse) (fun c => decide (c = '/'))).length_le
  simpa [rstripSlash] using h

theorem seg_head_tail (p q : Str)
    (hp1 : p.head? = some '/') (hp2 : (p.drop 1).head? ≠ some '/')
    (hq : q <+: p) (hqne : q ≠ []) :
    q.head? = some '/' ∧ (q.drop 1).head? ≠ some '/' := by
  obtain ⟨t, ht⟩ := hq
  cases q with
  | nil => exact absurd rfl hqne
  | cons a q' =>
    have ha : a = '/' := by
      rw [← ht] at hp1
      simpa using hp1
    subst ha
    refine ⟨rfl, ?_⟩
    cases q' with
    | nil => simp
    | cons b q'' =>
      rw [← ht] at hp2
      simpa using hp2

theorem dirname_step (p : Str)
    (hp1 : p.head? = some '/') (hp2 : (p.drop 1).head? ≠ some '/')
    (hne : p ≠ ('/' :: [])) :
    ((dirname p).head? = some '/' ∧ ((dirname p).drop 1).head? ≠ some '/')
    ∧ (dirname p).length < p.length := by
  obtain ⟨c, tail, hpc⟩ : ∃ c tail, p = '/' :: c :: tail := by
    cases p with
    | nil => cases hp1
    | cons a t =>
      have ha : a = '/' := by simpa using hp1
      subst ha
      cases t with
      | nil => exact absurd rfl hne
      | cons c tail => exact ⟨c, tail, rfl⟩
  have hcne : c ≠ '/' := by
    intro he
    apply hp2
    rw [hpc, he]
    rfl
  obtain ⟨j, hj⟩ : ∃ j, lastSlashIdx p = some j := by
    cases hl : lastSlashIdx p with
    | none =>
      have := (lastSlashIdx_none_iff p).mp hl
      rw [hpc] at this
      exact absurd (List.mem_cons_self '/' _) this
    | some j => exact ⟨j, rfl⟩
  obtain ⟨xs, ys, hdec, hlen, hys⟩ := lastSlashIdx_decomp p j hj
  have htake : p.take (j + 1) = xs ++ ['/'] := by
    rw [hdec, ← hlen, List.take_append_eq_append_take]
    have h1 : xs.take (xs.length + 1) = xs := List.take_of_length_le (by omega)
    have h2 : xs.length + 1 - xs.length = 1 := by omega
    rw [h1, h2]
    rfl
  have hdir : dirname p =
      (if xs ++ ['/'] ≠ [] ∧ xs ++ ['/'] ≠ List.replicate (xs ++ ['/']).length '/' then
        rstripSlash (xs ++ ['/']) else xs ++ ['/']) := by
    unfold dirname
    rw [hj]
    simp only [htake]
  cases hxs : xs with
  | nil =>
    rw [hxs] at hdir
    simp only [List.nil_append] at hdir
    have hrep : (['/'] : Str) = List.replicate (['/'] : Str).length '/' := by rfl
    rw [if_neg (by intro hand; exact hand.2 hrep)] at hdir
    rw [hdir]
    constructor
    · exact ⟨rfl, by simp⟩
    · rw [hpc]
      simp
  | cons x xs' =>
    have hx : x = '/' := by
      have : p.head? = some x := by
        rw [hdec, hxs]
        rfl
      rw [hp1] at this
      injection this with hh
      exact hh.symm
    subst hx
    have hxs' : ∃ d xs'', xs' = d :: xs'' ∧ d = c := by
      cases hxs'0 : xs' with
      | nil =>
        exfalso
        rw [hxs, hxs'0] at hdec
        rw [hpc] at hdec
        have : c = '/' := by
          have := congrArg (fun l => List.get? l 1) hdec
          simpa using this
        exact hcne this
      | cons d xs'' =>
        refine ⟨d, xs'', rfl, ?_⟩
        rw [hxs, hxs'0] at hdec
        rw [hpc] at hdec
        have := congrArg (fun l => List.get? l 1) hdec
        simpa using this.symm
    obtain ⟨d, xs'', hxs'eq, hdc⟩ := hxs'
    rw [hdc] at hxs'eq
    have hmemc : c ∈ xs := by
      rw [hxs, hxs'eq]
      exact List.mem_cons_of_mem _ (List.mem_cons_self _ _)
    have hnotrep : xs ++ ['/'] ≠ List.replicate (xs ++ ['/']).length '/' := by
      intro hrep
      have hallslash := (List.eq_replicate_iff.mp hrep).2
      have : c = '/' := hallslash c (List.mem_append_left _ hmemc)
      exact hcne this
    rw [if_pos ⟨by simp, hnotrep⟩] at hdir
    rw [rstripSlash_append_slash] at hdir
    have hxspre : xs <+: p := ⟨'/' :: ys, by rw [hdec]⟩
    have hdirpre : dirname p <+: p := by
      rw [hdir]
      exact (rstripSlash_front xs).trans hxspre
    have hdirne : dirname p ≠ [] := by
      rw [hdir]
      exact rstripSlash_ne_nil xs c hmemc hcne
    constructor
    · exact seg_head_tail p (dirname p) hp1 hp2 hdirpre hdirne
    · rw [hdir]
      have h1 : (rstripSlash xs).length ≤ xs.length := rstripSlash_length_le xs
      have h2 : xs.length < p.length := by
        rw [hdec]
        simp
      omega

theorem lookupGitRepo_spec (isRepo : Str → Bool) :
    ∀ (fuel : Nat) (p : Str), p.length ≤ fuel →
      p.head? = some '/' → (p.drop 1).head? ≠ some '/' →
      ((lookupGitRepo isRepo fuel p).isSome = true
       ∧ ∀ r, lookupGitRepo isRepo fuel p = some (some r) →
          r ≠ ('/' :: []) ∧ isRepo r = true) := by
  intro fuel
  induction fuel with
  | zero =>
    intro p hlen hp1 hp2
    cases p with
    | nil => cases hp1
    | cons a t => simp at hlen
  | succ fuel ih =>
    intro p hlen hp1 hp2
    unfold lookupGitRepo
    by_cases hroot : p = ('/' :: [])
    · rw [if_pos hroot]
      refine ⟨rfl, ?_⟩
      intro r hr
      injection hr with h
      cases h
    · rw [if_neg hroot]
      by_cases hrepo : isRepo p = true
      · rw [if_pos hrepo]
        refine ⟨rfl, ?_⟩
        intro r hr
        injection hr with h
        injection h with h2
        rw [← h2]
        exact ⟨hroot, hrepo⟩
      · rw [if_neg hrepo]
        obtain ⟨⟨hd1, hd2⟩, hdlen⟩ := dirname_step p hp1 hp2 hroot
        exact ih (dirname p) (by omega) hd1 hd2

theorem lookupGitRepo_ignores_root (isRepo isRepo2 : Str → Bool)
    (hagree : ∀ q : Str, q ≠ ('/' :: []) → isRepo q = isRepo2 q) :
    ∀ (fuel : Nat) (p : Str),
      lookupGitRepo isRepo fuel p = lookupGitRepo isRepo2 fuel p := by
  intro fuel
  induction fuel with
  | zero => intro p; rfl
  | succ fuel ih =>
    intro p
    unfold lookupGitRepo
    by_cases hroot : p = ('/' :: [])
    · rw [if_pos hroot, if_pos hroot]
    · rw [if_neg hroot, if_neg hroot, hagree p hroot, ih]

/-- Claim C10, amended: For every candidate path that begins with `'/'` but
not with `"//"`, the repository ascent terminates: with fuel equal to the
path length the loop completes, returning either `None` or a repository
found at some path that is not the filesystem root and satisfies the
repository test; and the outcome never depends on whether `"/"` itself is a
repository (the loop guard `path != "/"` exits before testing it).  The
restriction to single-slash prefixes is necessary: `os.path.dirname` fixes
`"//"`, so paths beginning with `"//"` make the `while` loop diverge. -/
theorem C10_repository_ascent (isRepo : Str → Bool) (p : Str)
    (hp1 : (p : Str).head? = some '/')
    (hp2 : ((p.drop 1) : Str).head? ≠ some '/') :
    ((lookupGitRepo isRepo p.length p).isSome = true)
    ∧ (∀ r, lookupGitRepo isRepo p.length p = some (some r) →
        r ≠ ('/' :: []) ∧ isRepo r = true)
    ∧ (∀ isRepo2 : Str → Bool, (∀ q : Str, q ≠ ('/' :: []) → isRepo q = isRepo2 q) →
        ∀ fuel : Nat, lookupGitRepo isRepo fuel p = lookupGitRepo isRepo2 fuel p) := by
  obtain ⟨h1, h2⟩ := lookupGitRepo_spec isRepo p.length p (le_refl _) hp1 hp2
  exact ⟨h1, h2, fun i2 hag fuel => lookupGitRepo_ignores_root isRepo i2 hag fuel p⟩


/-- Witness for C10 (amended): the ascent from a file three levels inside
the checkout terminates and finds the repository at a strict descendant of
the root. -/
theorem C10_witness :
    (lookupGitRepo isRepoW ("/home/user/proj/src/d.py".toList).length
      "/home/user/proj/src/d.py".toList).isSome = true
    ∧ ("/home/user/proj".toList ≠ ('/' :: [])
        ∧ isRepoW "/home/user/proj".toList = true) := by
  have h := C10_repository_ascent isRepoW "/home/user/proj/src/d.py".toList
    (by decide) (by decide)
  exact ⟨h.1, h.2.1 "/home/user/proj".toList (by decide)⟩

/-- Counterexample to C10 as stated: the absolute path `//x.py` (it begins
with `'/'`) never reaches `"/"`: `dirname` sends it to `"//"`, which is a
fixed point of `dirname` distinct from `"/"`, so the `while` loop never
exits — even 100 iterations of the loop do not terminate it. -/
theorem C10_counterexample :
    dirname "//x.py".toList = "//".toList
    ∧ dirname "//".toList = "//".toList
    ∧ "//".toList ≠ "/".toList
    ∧ lookupGitRepo (fun _ => false) 100 "//x.py".toList = none := by decide
